import Mathlib

/-!
Verification of the CORUM protein-complex pipeline (`prot_compl.py`).

The script reads a tab-separated CORUM table, keeps the rows whose
`organism` column equals `"Human"`, writes the three columns
`complex_id`, `complex_name`, `subunits_uniprot_id` to an intermediate
file via `DataFrame.to_csv`, re-reads that file line by line, splits the
subunit column on `;`, accumulates a dict mapping each trimmed subunit
token to the list of complex ids referencing it, and writes the dict
sorted by key to a final file.

File contents are modelled as `List Char`; fields, keys and values are
`String` (logically a wrapper around `List Char`).  Python's `str.strip`,
`str.split`, CSV quoting of `to_csv`, the insertion-ordered dict and the
exception handlers of the script are each given an explicit executable
model below, translated construct by construct from the source.
-/

/-- Python whitespace, the exact set of characters for which CPython's
`str.isspace()` holds and which `str.strip()` removes: tab through
carriage return (U+0009 to U+000D), the information separators U+001C to
U+001F, space, next line (U+0085), no-break space (U+00A0), the Ogham
space mark (U+1680), the Unicode space separators U+2000 to U+200A, the
line and paragraph separators (U+2028, U+2029), the narrow no-break
space (U+202F), the medium mathematical space (U+205F) and the
ideographic space (U+3000). -/
def isPySpace (c : Char) : Bool :=
  decide (0x9 <= c.val) && decide (c.val <= 0xd) ||
  c.val == 0x20 ||
  decide (0x1c <= c.val) && decide (c.val <= 0x1f) ||
  c.val == 0x85 || c.val == 0xa0 || c.val == 0x1680 ||
  decide (0x2000 <= c.val) && decide (c.val <= 0x200a) ||
  c.val == 0x2028 || c.val == 0x2029 || c.val == 0x202f || c.val == 0x205f || c.val == 0x3000

/-- Model of Python `s.lstrip()` on the character list of `s`. -/
def lstripC (l : List Char) : List Char := l.dropWhile isPySpace

/-- Model of Python `s.rstrip()` on the character list of `s`. -/
def rstripC (l : List Char) : List Char := (l.reverse.dropWhile isPySpace).reverse

/-- Model of Python `s.strip()` on the character list of `s`. -/
def stripC (l : List Char) : List Char := lstripC (rstripC l)

/-- Model of Python `s.split(sep)` for a one-character separator:
splits at every occurrence, keeping empty pieces, so the result always
has one more piece than there are separators. -/
def splitOnC (c : Char) : List Char → List (List Char)
  | [] => [[]]
  | x :: xs =>
    if x = c then [] :: splitOnC c xs
    else
      match splitOnC c xs with
      | [] => [[x]]
      | h :: t => (x :: h) :: t

/-- One row of the input CORUM table, restricted to the four columns the
script reads (`df['organism']`, and the three projected columns). -/
structure Row where
  complex_id : String
  complex_name : String
  organism : String
  subunits_uniprot_id : String

/-- The projection `human_df[['complex_id', 'complex_name',
'subunits_uniprot_id']]` of a retained row. -/
structure FilteredRecord where
  complex_id : String
  complex_name : String
  subunits_uniprot_id : String

/-- Project a row to the three columns written to the intermediate file. -/
def project (r : Row) : FilteredRecord :=
  ⟨r.complex_id, r.complex_name, r.subunits_uniprot_id⟩

/-- Model of `df[df['organism'] == 'Human']`: keep exactly the rows whose
organism field equals the literal `"Human"`, preserving order. -/
def filterHuman (rows : List Row) : List Row :=
  rows.filter (fun r => r.organism == "Human")

/-- A CSV field needs quoting under `to_csv`'s default QUOTE_MINIMAL rule
when it contains the separator, a quote, or a line break. -/
def needsQuote (l : List Char) : Bool :=
  l.any (fun c => c = '\t' || c = '\n' || c = '\r' || c = '"')

/-- CSV quoting: wrap in double quotes, doubling embedded quotes. -/
def quoteField (l : List Char) : List Char :=
  ('"' :: l.flatMap (fun c => if c = '"' then ['"', '"'] else [c])) ++ ['"']

/-- How `to_csv(sep='\t')` renders a single field. -/
def csvField (s : String) : List Char :=
  if needsQuote s.data then quoteField s.data else s.data

/-- One data row of the intermediate file as rendered by `to_csv`. -/
def writeRow (r : FilteredRecord) : List Char :=
  csvField r.complex_id ++ ('\t' :: (csvField r.complex_name ++ ('\t' :: csvField r.subunits_uniprot_id)))

/-- Header row of the intermediate file. -/
def smaHeader : List Char := ("complex_id\tcomplex_name\tsubunits_uniprot_id").data

/-- Join lines into file content; every line is terminated by `'\n'`. -/
def linesToContent (ls : List (List Char)) : List Char :=
  ls.flatMap (fun l => l ++ ['\n'])

/-- Content of the intermediate file written by
`sma_df.to_csv(output_sma_file, sep='\t', index=False, header=True)`. -/
def smaContent (recs : List FilteredRecord) : List Char :=
  linesToContent (smaHeader :: recs.map writeRow)

/-- Model of Python text-file line iteration: the pieces between `'\n'`
characters; a trailing piece after the final `'\n'` exists only when it
is non-empty.  (The iterator yields each line with its `'\n'`, which the
script immediately strips, so lines are modelled without it.)  Python's
universal-newlines reading additionally ends a line at a bare `'\r'`; in
this pipeline a CR can reach the file only inside a quoted field, and
the theorems that rely on line recovery take `'\r'`-free fields
(`cleanFieldB` / `noCRRowB`) as hypotheses, on which this `'\n'`-only
model coincides with the universal-newlines reading. -/
def fileLines (content : List Char) : List (List Char) :=
  let parts := splitOnC '\n' content
  if parts.getLast? = some [] then parts.dropLast else parts

/-- The lines consumed by the inversion loop: everything after
`next(sma_file)` has skipped the header line. -/
def dataLines (content : List Char) : List (List Char) :=
  (fileLines content).drop 1

/-- The text of the `ValueError` CPython raises when unpacking a list of
`n` values into three targets fails. -/
def unpackMsg (n : Nat) : String :=
  if n < 3 then ("not enough values to unpack (expected 3, got " ++ toString n ++ ")")
  else ("too many values to unpack (expected 3)")

/-- Model of `complex_id, _, subunits_uniprot_id = line.strip().split('\t')`:
either the pair (complex_id, subunits field) or the unpacking error. -/
def parseDataLine (line : List Char) : Except String (String × String) :=
  match splitOnC '\t' (stripC line) with
  | [cid, _, sub] => Except.ok (String.mk cid, String.mk sub)
  | fs => Except.error (unpackMsg fs.length)

/-- The non-empty trimmed tokens of a subunits field:
`subunits_uniprot_id.split(';')`, each `.strip()`ped, empties skipped. -/
def tokensOfC (sub : List Char) : List String :=
  ((splitOnC ';' sub).map (fun t => String.mk (stripC t))).filter (fun t => t != "")

/-- Token list of a subunits field given as a string. -/
def tokensOf (s : String) : List String := tokensOfC s.data

/-- The script's `complexes_dict`: a Python dict in insertion order,
keys are subunit tokens, values the accumulated complex-id lists. -/
abbrev Dict := List (String × List String)

/-- One execution of the loop body: append `cid` to the entry of `sub`,
creating the entry at the end of the dict on first sight (Python dicts
preserve insertion order). -/
def addToken : Dict → String → String → Dict
  | [], sub, cid => [(sub, [cid])]
  | (k, v) :: rest, sub, cid =>
    if k = sub then (k, v ++ [cid]) :: rest
    else (k, v) :: addToken rest sub cid

/-- Process the subunit tokens of one parsed data line. -/
def addLine (d : Dict) (cid : String) (sub : String) : Dict :=
  (tokensOf sub).foldl (fun d t => addToken d t cid) d

/-- The inversion scan over the data lines of the intermediate file:
stops with the `ValueError` text at the first line that does not split
into exactly three tab-separated fields. -/
def buildIndex : List (List Char) → Dict → Except String Dict
  | [], d => Except.ok d
  | l :: ls, d =>
    match parseDataLine l with
    | Except.error m => Except.error m
    | Except.ok p => buildIndex ls (addLine d p.1 p.2)

/-- Strict lexicographic code-point order on character lists: exactly
the order Python's `<` (and hence `sorted`) uses on strings. -/
def ltC : List Char → List Char → Bool
  | [], [] => false
  | [], _ :: _ => true
  | _ :: _, [] => false
  | a :: as, b :: bs => if a < b then true else if b < a then false else ltC as bs

/-- The reflexive closure of `ltC`, via totality. -/
def leC (a b : List Char) : Bool := !(ltC b a)

/-- Insert one entry into a key-sorted dict, keeping it sorted. -/
def insertKey (p : String × List String) : Dict → Dict
  | [] => [p]
  | q :: rest => if leC p.1.data q.1.data then p :: q :: rest else q :: insertKey p rest

/-- Model of `sorted(complexes_dict.keys())` together with the lookups
that follow it: the dict entries in ascending key order.  Keys of the
accumulated dict are distinct, so any sort into ascending order yields
the same entry list as Python's `sorted`. -/
def sortDict (d : Dict) : Dict := d.foldr insertKey []

/-- Model of `"|".join(ids)`. -/
def joinBar : List String → List Char
  | [] => []
  | [s] => s.data
  | s :: rest => s.data ++ ('|' :: joinBar rest)

/-- One data row of the final file: `f"{subunit}\t{complex_ids}"`. -/
def renderEntry (p : String × List String) : List Char :=
  p.1.data ++ ('\t' :: joinBar p.2)

/-- Header row of the final file. -/
def finalHeader : List Char := ("subunits_uniprot_id\tcomplex_ids").data

/-- Content of the final output file. -/
def finalContent (d : Dict) : List Char :=
  linesToContent (finalHeader :: (sortDict d).map renderEntry)

/-- Observable outcome of one call of `process_corum_data`: the contents
written to the two output files (when written) and the diagnostic printed
by an exception handler (when one fired). -/
structure Outcome where
  sma : Option (List Char)
  final : Option (List Char)
  errMsg : Option String

/-- What reading the input file can yield: the file is missing
(`FileNotFoundError`), pandas cannot tokenize it (`ParserError`), or it
parses into a table of rows. -/
inductive ReadResult where
  | notFound
  | parseError
  | table (rows : List Row)

/-- Stages 2 and 3 for a successfully parsed table: write the
intermediate file, re-read it, build the dict, write the final file.
`finalWriteErr` models an OSError (with its message) raised while
opening or writing the final output file. -/
def processTable (rows : List Row) (finalWriteErr : Option String) : Outcome :=
  let recs := (filterHuman rows).map project
  let sma := smaContent recs
  match buildIndex (dataLines sma) [] with
  | Except.error m => ⟨some sma, none, some ("An unexpected error occurred: " ++ m)⟩
  | Except.ok d =>
    match finalWriteErr with
    | some m => ⟨some sma, none, some ("An unexpected error occurred: " ++ m)⟩
    | none => ⟨some sma, some (finalContent d), none⟩

/-- The two output files as they stand on disk around a run; `none`
means the file does not exist. -/
structure FS where
  smaFile : Option (List Char)
  finalFile : Option (List Char)

/-- Effect of one run on the output files.  Both files are opened in
write mode (`to_csv` and `open(..., 'w')`), so prior contents are
discarded when a write happens; a file not written by the run keeps its
prior state.  Stage 3 re-reads the intermediate file just written. -/
def runFS (rr : ReadResult) (fs : FS) : FS :=
  match rr with
  | ReadResult.notFound => fs
  | ReadResult.parseError => fs
  | ReadResult.table rows =>
    let sma := smaContent ((filterHuman rows).map project)
    match buildIndex (dataLines sma) [] with
    | Except.error _ => ⟨some sma, fs.finalFile⟩
    | Except.ok d => ⟨some sma, some (finalContent d)⟩

/-- Position of a named column in the header, as pandas locates
`df['name']`: the first index whose header cell equals the name. -/
def findCol (header : List String) (name : String) : Option Nat :=
  header.findIdx? (fun h => h == name)

/-- The cell of a row at a column position. -/
def getCell (row : List String) (i : Nat) : String := row.getD i ("")

/-- Build the four-field rows the script reads out of a raw parsed table
(header plus cell rows), locating each required column by name; `none`
when a required column is missing (pandas raises `KeyError` then). -/
def extractRows (header : List String) (cells : List (List String)) : Option (List Row) :=
  match findCol header ("complex_id"), findCol header ("complex_name"),
        findCol header ("organism"), findCol header ("subunits_uniprot_id") with
  | some ic, some icn, some io, some isub =>
      some (cells.map (fun row => ⟨getCell row ic, getCell row icn, getCell row io, getCell row isub⟩))
  | _, _, _, _ => none

/-- A field is clean when it contains no tab, line break, or double
quote: exactly the fields `to_csv` writes without quoting and a single
line can carry unambiguously. -/
def cleanFieldB (s : String) : Bool :=
  s.data.all (fun c => !(c = '\t' || c = '\n' || c = '\r' || c = '"'))

/-- The first character exists and is not whitespace, so `line.strip()`
cannot eat into the field from the left. -/
def headNonSpaceB (s : String) : Bool :=
  match s.data with
  | [] => false
  | c :: _ => !isPySpace c

/-- At least one non-whitespace character, so `line.strip()` cannot eat
through the field (and the preceding tab) from the right. -/
def hasNonSpaceB (s : String) : Bool := s.data.any (fun c => !isPySpace c)

/-- A retained row round-trips through the intermediate file unchanged:
its three written fields are clean, its complex id starts with a
non-whitespace character, and its subunits field keeps the final tab of
its line alive. -/
def cleanRowB (r : Row) : Bool :=
  cleanFieldB r.complex_id && cleanFieldB r.complex_name && cleanFieldB r.subunits_uniprot_id &&
  headNonSpaceB r.complex_id && hasNonSpaceB r.subunits_uniprot_id

/-- The (complex_id, subunits field) pairs of the retained rows, in
input order: the data the inversion is specified against. -/
def humanItems (rows : List Row) : List (String × String) :=
  (filterHuman rows).map (fun r => (r.complex_id, r.subunits_uniprot_id))

/-- For a list of (complex_id, subunits field) pairs, the complex ids
accumulated for token `t`: one copy of the pair's complex id per
occurrence of `t` among the pair's tokens, scanning pairs in order. -/
def occList (items : List (String × String)) (t : String) : List String :=
  items.flatMap (fun p => ((tokensOf p.2).filter (fun x => x == t)).map (fun _ => p.1))

/-- The key of a rendered line: its first tab-separated field. -/
def keyOfLine (l : List Char) : List Char := (splitOnC '\t' l).headD []

/-- Lookup in the modelled dict (first entry with the given key). -/
def lookupD : Dict → String → Option (List String)
  | [], _ => none
  | (k, v) :: rest, t => if k = t then some v else lookupD rest t

/-- Whether a data line parses into exactly three fields. -/
def parsesOk (l : List Char) : Bool := (parseDataLine l).toOption.isSome

/-- The parsed (complex_id, subunits) items the scan actually consumes:
the data lines up to (not including) the first malformed one. -/
def itemsOf (lines : List (List Char)) : List (String × String) :=
  (lines.takeWhile parsesOk).filterMap (fun l => (parseDataLine l).toOption)

/-- The elementary dict updates of the scan, flattened: one
(complex_id, token) step per surviving token, in processing order. -/
def stepsOf (lines : List (List Char)) : List (String × String) :=
  (itemsOf lines).flatMap (fun p => (tokensOf p.2).map (fun t => (p.1, t)))

/-- The dict after the first `n` elementary steps of the scan. -/
def dictAfter (lines : List (List Char)) (n : Nat) : Dict :=
  ((stepsOf lines).take n).foldl (fun d s => addToken d s.2 s.1) []

/-- Fold a list of parsed items into the dict (the outer loop of the
scan, once parsing has been split off). -/
def foldDict (items : List (String × String)) (d : Dict) : Dict :=
  items.foldl (fun d p => addLine d p.1 p.2) d

/-- Helper for splitting lemmas: extend the last piece of a piece list
by `w` (the shape `splitOnC` takes on a separator-free suffix). -/
def appLast (w : List Char) : List (List Char) → List (List Char)
  | [] => [w]
  | [x] => [x ++ w]
  | x :: y :: rest => x :: appLast w (y :: rest)

/-- The three written fields of a row contain no `'\n'`, so its rendered
record occupies exactly one physical line of the intermediate file. -/
def noNewlineRowB (r : Row) : Bool :=
  r.complex_id.data.all (fun c => !(c = '\n')) &&
  r.complex_name.data.all (fun c => !(c = '\n')) &&
  r.subunits_uniprot_id.data.all (fun c => !(c = '\n'))

/-- The three written fields of a row contain no carriage return.  A CR
reaches the intermediate file only inside a `to_csv`-quoted field, where
Python's universal-newlines reading would end the physical line early;
excluding CR keeps the `'\n'`-split model of `fileLines` byte-faithful
to what the inversion loop reads back. -/
def noCRRowB (r : Row) : Bool :=
  r.complex_id.data.all (fun c => !(c = '\r')) &&
  r.complex_name.data.all (fun c => !(c = '\r')) &&
  r.subunits_uniprot_id.data.all (fun c => !(c = '\r'))

/-- The (complex_id, subunits) pairs the scan recovers from the
intermediate file when every retained row is clean: the subunits field
comes back with its trailing whitespace removed by `line.strip()`. -/
def parsedItems (rows : List Row) : List (String × String) :=
  (filterHuman rows).map (fun r => (r.complex_id, String.mk (rstripC r.subunits_uniprot_id.data)))

/-- Combine a previous dict value with newly accumulated ids: absent
stays absent when nothing is added, otherwise the lists concatenate. -/
def accum (o : Option (List String)) (occ : List String) : Option (List String) :=
  match o, occ with
  | none, [] => none
  | o, occ => some (o.getD [] ++ occ)

/-- The keys of the modelled dict, in insertion order. -/
def keysD (d : Dict) : List String := d.map Prod.fst

/-- A string that a single tab-separated line can carry in one field:
no tab and no line break.  Every key and id the scan stores has this
shape, whatever the input was, because both came out of splitting. -/
def cleanStr (s : String) : Prop := '\t' ∉ s.data ∧ '\n' ∉ s.data

/-- All keys and stored ids of a dict are clean. -/
def cleanDict (d : Dict) : Prop :=
  ∀ p ∈ d, cleanStr p.1 ∧ ∀ cid ∈ p.2, cleanStr cid

/-! ## Splitting lemmas -/

theorem splitOnC_ne_nil (c : Char) (l : List Char) : splitOnC c l ≠ [] := by
  induction l with
  | nil => simp [splitOnC]
  | cons x xs ih =>
    simp only [splitOnC]
    by_cases h : x = c
    · simp [h]
    · simp only [if_neg h]
      cases hs : splitOnC c xs <;> simp

theorem splitOnC_eq_single {c : Char} {l : List Char} (h : c ∉ l) : splitOnC c l = [l] := by
  induction l with
  | nil => rfl
  | cons x xs ih =>
    have hx : x ≠ c := fun he => h (he ▸ List.mem_cons_self x xs)
    have hxs : c ∉ xs := fun hm => h (List.mem_cons_of_mem _ hm)
    simp [splitOnC, hx, ih hxs]

theorem splitOnC_append_cons {c : Char} {a b : List Char} (h : c ∉ a) :
    splitOnC c (a ++ c :: b) = a :: splitOnC c b := by
  induction a with
  | nil => simp [splitOnC]
  | cons x xs ih =>
    have hx : x ≠ c := fun he => h (he ▸ List.mem_cons_self x xs)
    have hxs : c ∉ xs := fun hm => h (List.mem_cons_of_mem _ hm)
    rw [List.cons_append]
    simp only [splitOnC, if_neg hx]
    rw [ih hxs]

theorem mem_splitOnC {c : Char} {l p : List Char} (hp : p ∈ splitOnC c l) :
    (∀ x ∈ p, x ∈ l) ∧ c ∉ p := by
  induction l generalizing p with
  | nil =>
    simp only [splitOnC, List.mem_singleton] at hp
    subst hp
    simp
  | cons y ys ih =>
    by_cases h : y = c
    · rw [splitOnC, if_pos h] at hp
      rcases List.mem_cons.mp hp with rfl | hp2
      · simp
      · obtain ⟨hsub, hnot⟩ := ih hp2
        exact ⟨fun x hx => List.mem_cons_of_mem _ (hsub x hx), hnot⟩
    · rw [splitOnC, if_neg h] at hp
      cases hs : splitOnC c ys with
      | nil => exact absurd hs (splitOnC_ne_nil c ys)
      | cons q t =>
        rw [hs] at hp
        rcases List.mem_cons.mp hp with rfl | hp2
        · have hq : q ∈ splitOnC c ys := by rw [hs]; exact List.mem_cons_self _ _
          obtain ⟨hsub, hnot⟩ := ih hq
          constructor
          · intro x hx
            rcases List.mem_cons.mp hx with rfl | hx2
            · exact List.mem_cons_self _ _
            · exact List.mem_cons_of_mem _ (hsub x hx2)
          · intro hc
            rcases List.mem_cons.mp hc with hc1 | hc2
            · exact h hc1.symm
            · exact hnot hc2
        · have hq : p ∈ splitOnC c ys := by rw [hs]; exact List.mem_cons_of_mem _ hp2
          obtain ⟨hsub, hnot⟩ := ih hq
          exact ⟨fun x hx => List.mem_cons_of_mem _ (hsub x hx), hnot⟩

theorem appLast_cons {w x : List Char} {ys : List (List Char)} (h : ys ≠ []) :
    appLast w (x :: ys) = x :: appLast w ys := by
  cases ys with
  | nil => exact absurd rfl h
  | cons y t => rfl

theorem splitOnC_append_nosep {c : Char} {a w : List Char} (h : c ∉ w) :
    splitOnC c (a ++ w) = appLast w (splitOnC c a) := by
  induction a with
  | nil => simp [splitOnC, splitOnC_eq_single h, appLast]
  | cons x xs ih =>
    by_cases hx : x = c
    · rw [List.cons_append]
      simp only [splitOnC, if_pos hx]
      rw [ih, appLast_cons (splitOnC_ne_nil c xs)]
    · rw [List.cons_append]
      simp only [splitOnC, if_neg hx]
      rw [ih]
      cases hs : splitOnC c xs with
      | nil => exact absurd hs (splitOnC_ne_nil c xs)
      | cons q t =>
        cases t with
        | nil => simp [appLast]
        | cons t1 ts => simp [appLast]

/-! ## Stripping lemmas -/

theorem dropWhile_append_of_ne_nil {p : Char → Bool} {u v : List Char}
    (h : u.dropWhile p ≠ []) : (u ++ v).dropWhile p = u.dropWhile p ++ v := by
  induction u with
  | nil => simp at h
  | cons x xs ih =>
    by_cases hx : p x
    · simp only [List.cons_append, List.dropWhile_cons_of_pos hx] at h ⊢
      exact ih h
    · simp only [List.cons_append, List.dropWhile_cons_of_neg hx]

theorem dropWhile_append_of_all {p : Char → Bool} {u v : List Char}
    (h : ∀ x ∈ u, p x) : (u ++ v).dropWhile p = v.dropWhile p := by
  induction u with
  | nil => simp
  | cons x xs ih =>
    rw [List.cons_append, List.dropWhile_cons_of_pos (h x (List.mem_cons_self x xs))]
    exact ih (fun y hy => h y (List.mem_cons_of_mem _ hy))

theorem rstripC_decomp (l : List Char) :
    ∃ w, l = rstripC l ++ w ∧ ∀ x ∈ w, isPySpace x := by
  refine ⟨(l.reverse.takeWhile isPySpace).reverse, ?_, ?_⟩
  · rw [rstripC, ← List.reverse_append, List.takeWhile_append_dropWhile, List.reverse_reverse]
  · intro x hx
    exact List.mem_takeWhile_imp (List.mem_reverse.mp hx)

theorem rstripC_append {a b : List Char} (h : ∃ x ∈ b, ¬ isPySpace x) :
    rstripC (a ++ b) = a ++ rstripC b := by
  obtain ⟨x, hx, hpx⟩ := h
  have hne : b.reverse.dropWhile isPySpace ≠ [] := by
    intro h0
    exact hpx (List.dropWhile_eq_nil_iff.mp h0 x (List.mem_reverse.mpr hx))
  rw [rstripC, List.reverse_append, dropWhile_append_of_ne_nil hne, List.reverse_append,
    List.reverse_reverse, rstripC]

theorem rstripC_append_space {a w : List Char} (hw : ∀ x ∈ w, isPySpace x) :
    rstripC (a ++ w) = rstripC a := by
  rw [rstripC, List.reverse_append,
    dropWhile_append_of_all (fun x hx => hw x (List.mem_reverse.mp hx)), rstripC]

theorem stripC_append_space {a w : List Char} (hw : ∀ x ∈ w, isPySpace x) :
    stripC (a ++ w) = stripC a := by
  rw [stripC, stripC, rstripC_append_space hw]

theorem lstripC_cons_nonspace {x : Char} {xs : List Char} (h : ¬ isPySpace x) :
    lstripC (x :: xs) = x :: xs := by
  rw [lstripC, List.dropWhile_cons_of_neg h]

theorem mem_rstripC_subset {l : List Char} {x : Char} (hx : x ∈ rstripC l) : x ∈ l := by
  rw [rstripC, List.mem_reverse] at hx
  exact List.mem_reverse.mp (List.Sublist.mem hx (List.dropWhile_sublist _))

theorem mem_stripC_subset {l : List Char} {x : Char} (hx : x ∈ stripC l) : x ∈ l := by
  rw [stripC, lstripC] at hx
  exact mem_rstripC_subset (List.Sublist.mem hx (List.dropWhile_sublist _))

/-! ## File-line lemmas -/

theorem splitOnC_linesToContent {ls : List (List Char)} (h : ∀ l ∈ ls, '\n' ∉ l) :
    splitOnC '\n' (linesToContent ls) = ls ++ [[]] := by
  induction ls with
  | nil => rfl
  | cons l rest ih =>
    have : linesToContent (l :: rest) = l ++ '\n' :: linesToContent rest := by
      rw [linesToContent, List.flatMap_cons, List.append_assoc, List.singleton_append]
      rfl
    rw [this, splitOnC_append_cons (h l (List.mem_cons_self l rest)),
      ih (fun x hx => h x (List.mem_cons_of_mem _ hx)), List.cons_append]

theorem fileLines_linesToContent {ls : List (List Char)} (h : ∀ l ∈ ls, '\n' ∉ l) :
    fileLines (linesToContent ls) = ls := by
  rw [fileLines, splitOnC_linesToContent h]
  rw [List.getLast?_concat, List.dropLast_concat]
  simp

theorem mem_fileLines_no_newline {content : List Char} {p : List Char}
    (hp : p ∈ fileLines content) : '\n' ∉ p := by
  rw [fileLines] at hp
  have hmem : p ∈ splitOnC '\n' content := by
    by_cases hc : (splitOnC '\n' content).getLast? = some []
    · rw [if_pos hc] at hp
      exact List.Sublist.mem hp (List.dropLast_sublist _)
    · rwa [if_neg hc] at hp
  exact (mem_splitOnC hmem).2

/-! ## Token lemmas -/

theorem filterTokens_appLast {w : List Char} (hw : ∀ x ∈ w, isPySpace x)
    {ps : List (List Char)} (hne : ps ≠ []) :
    ((appLast w ps).map (fun t => String.mk (stripC t))).filter (fun t => t != "") =
      (ps.map (fun t => String.mk (stripC t))).filter (fun t => t != "") := by
  induction ps with
  | nil => exact absurd rfl hne
  | cons x rest ih =>
    cases rest with
    | nil => simp [appLast, stripC_append_space hw]
    | cons y t =>
      rw [appLast_cons (by simp)]
      have hih := ih (by simp)
      simp only [List.map_cons, List.filter_cons] at hih ⊢
      rw [hih]

theorem tokensOfC_append_space {a w : List Char} (hw : ∀ x ∈ w, isPySpace x) :
    tokensOfC (a ++ w) = tokensOfC a := by
  have hnw : ';' ∉ w := by
    intro hm
    exact absurd (hw _ hm) (by decide)
  rw [tokensOfC, tokensOfC, splitOnC_append_nosep hnw,
    filterTokens_appLast hw (splitOnC_ne_nil ';' a)]

theorem tokensOfC_rstripC (l : List Char) : tokensOfC (rstripC l) = tokensOfC l := by
  obtain ⟨w, hdecomp, hw⟩ := rstripC_decomp l
  conv_rhs => rw [hdecomp]
  rw [tokensOfC_append_space hw]

theorem mem_tokensOf_subset {s : String} {tok : String} (h : tok ∈ tokensOf s) :
    ∀ x ∈ tok.data, x ∈ s.data := by
  rw [tokensOf, tokensOfC] at h
  have h2 := List.mem_of_mem_filter h
  obtain ⟨piece, hpiece, heq⟩ := List.mem_map.mp h2
  intro x hx
  rw [← heq] at hx
  exact (mem_splitOnC hpiece).1 x (mem_stripC_subset hx)

/-! ## Round trip of clean rows through the intermediate file -/

theorem cleanField_not_mem {s : String} (h : cleanFieldB s = true) :
    '\t' ∉ s.data ∧ '\n' ∉ s.data ∧ '\r' ∉ s.data ∧ '"' ∉ s.data := by
  rw [cleanFieldB, List.all_eq_true] at h
  refine ⟨fun hm => ?_, fun hm => ?_, fun hm => ?_, fun hm => ?_⟩ <;>
    · have := h _ hm
      simp at this

theorem csvField_of_clean {s : String} (h : cleanFieldB s = true) : csvField s = s.data := by
  have hq : needsQuote s.data = false := by
    rw [needsQuote]
    rw [List.any_eq_false]
    intro c hc
    rw [cleanFieldB, List.all_eq_true] at h
    have := h c hc
    simpa using this
  rw [csvField, hq]
  simp

theorem writeRow_of_clean {r : Row} (h1 : cleanFieldB r.complex_id = true)
    (h2 : cleanFieldB r.complex_name = true) (h3 : cleanFieldB r.subunits_uniprot_id = true) :
    writeRow (project r) =
      r.complex_id.data ++ ('\t' :: (r.complex_name.data ++ ('\t' :: r.subunits_uniprot_id.data))) := by
  rw [writeRow, project]
  rw [csvField_of_clean h1, csvField_of_clean h2, csvField_of_clean h3]

theorem hasNonSpaceB_exists {s : String} (h : hasNonSpaceB s = true) :
    ∃ x ∈ s.data, ¬ isPySpace x := by
  rw [hasNonSpaceB, List.any_eq_true] at h
  obtain ⟨x, hx, hpx⟩ := h
  exact ⟨x, hx, by simpa using hpx⟩

theorem cleanRowB_parts {r : Row} (h : cleanRowB r = true) :
    cleanFieldB r.complex_id = true ∧ cleanFieldB r.complex_name = true ∧
    cleanFieldB r.subunits_uniprot_id = true ∧ headNonSpaceB r.complex_id = true ∧
    hasNonSpaceB r.subunits_uniprot_id = true := by
  rw [cleanRowB] at h
  simp only [Bool.and_eq_true] at h
  exact ⟨h.1.1.1.1, h.1.1.1.2, h.1.1.2, h.1.2, h.2⟩

theorem parse_writeRow {r : Row} (h : cleanRowB r = true) :
    parseDataLine (writeRow (project r)) =
      Except.ok (r.complex_id, String.mk (rstripC r.subunits_uniprot_id.data)) := by
  obtain ⟨h1, h2, h3, h4, h5⟩ := cleanRowB_parts h
  rw [writeRow_of_clean h1 h2 h3]
  have hsplit :
      stripC (r.complex_id.data ++ ('\t' :: (r.complex_name.data ++ ('\t' :: r.subunits_uniprot_id.data)))) =
        r.complex_id.data ++ ('\t' :: (r.complex_name.data ++ ('\t' :: rstripC r.subunits_uniprot_id.data))) := by
    have hr :
        rstripC (r.complex_id.data ++ ('\t' :: (r.complex_name.data ++ ('\t' :: r.subunits_uniprot_id.data)))) =
          r.complex_id.data ++ ('\t' :: (r.complex_name.data ++ ('\t' :: rstripC r.subunits_uniprot_id.data))) := by
      have hform :
          r.complex_id.data ++ ('\t' :: (r.complex_name.data ++ ('\t' :: r.subunits_uniprot_id.data))) =
            (r.complex_id.data ++ ('\t' :: (r.complex_name.data ++ ['\t']))) ++ r.subunits_uniprot_id.data := by
        simp [List.append_assoc]
      rw [hform, rstripC_append (hasNonSpaceB_exists h5)]
      simp [List.append_assoc]
    rw [stripC, hr]
    cases hcid : r.complex_id.data with
    | nil => rw [headNonSpaceB, hcid] at h4; cases h4
    | cons c0 cs =>
      rw [headNonSpaceB, hcid] at h4
      rw [List.cons_append]
      rw [lstripC_cons_nonspace (by simpa using h4)]
  rw [parseDataLine, hsplit]
  have hc1 := (cleanField_not_mem h1).1
  have hc2 := (cleanField_not_mem h2).1
  have hc3 : '\t' ∉ rstripC r.subunits_uniprot_id.data :=
    fun hm => (cleanField_not_mem h3).1 (mem_rstripC_subset hm)
  rw [splitOnC_append_cons hc1, splitOnC_append_cons hc2, splitOnC_eq_single hc3]

/-! ## Dict lemmas -/

theorem lookupD_addToken_self (d : Dict) (t cid : String) :
    lookupD (addToken d t cid) t = some ((lookupD d t).getD [] ++ [cid]) := by
  induction d with
  | nil => simp [addToken, lookupD]
  | cons p rest ih =>
    obtain ⟨k, v⟩ := p
    by_cases h : k = t
    · subst h
      simp [addToken, lookupD]
    · simp [addToken, lookupD, h, ih]

theorem lookupD_addToken_other {t t' : String} (h : t' ≠ t) (d : Dict) (cid : String) :
    lookupD (addToken d t cid) t' = lookupD d t' := by
  induction d with
  | nil => simp [addToken, lookupD, Ne.symm h]
  | cons p rest ih =>
    obtain ⟨k, v⟩ := p
    by_cases hk : k = t
    · subst hk
      simp [addToken, lookupD, Ne.symm h]
    · by_cases hk2 : k = t'
      · subst hk2
        simp [addToken, lookupD, hk]
      · simp [addToken, lookupD, hk, hk2, ih]

theorem accum_nil_right (o : Option (List String)) : accum o [] = o := by
  cases o <;> simp [accum]

theorem accum_cons (o : Option (List String)) (x : String) (occ : List String) :
    accum o (x :: occ) = some (o.getD [] ++ (x :: occ)) := by
  cases o <;> simp [accum]

theorem accum_assoc (o : Option (List String)) (a b : List String) :
    accum (accum o a) b = accum o (a ++ b) := by
  cases o with
  | none =>
    cases a with
    | nil => simp [accum_nil_right]
    | cons x xs => cases b <;> simp [accum, List.append_assoc]
  | some v => cases a <;> cases b <;> simp [accum, List.append_assoc]

theorem lookupD_addToken (d : Dict) (tk cid t : String) :
    lookupD (addToken d tk cid) t = accum (lookupD d t) (if tk = t then [cid] else []) := by
  by_cases h : tk = t
  · subst h
    rw [lookupD_addToken_self, if_pos rfl]
    cases ho : lookupD d tk <;> simp [accum]
  · rw [lookupD_addToken_other (fun he => h he.symm), if_neg h, accum_nil_right]

theorem lookupD_foldTokens (toks : List String) (cid : String) (d : Dict) (t : String) :
    lookupD (toks.foldl (fun d tk => addToken d tk cid) d) t =
      accum (lookupD d t) ((toks.filter (fun x => x == t)).map (fun _ => cid)) := by
  induction toks generalizing d with
  | nil => simp [accum_nil_right]
  | cons tk rest ih =>
    rw [List.foldl_cons, ih, lookupD_addToken, accum_assoc]
    congr 1
    by_cases h : tk = t
    · simp [List.filter_cons, h]
    · simp [List.filter_cons, h]

theorem lookupD_addLine (d : Dict) (cid sub t : String) :
    lookupD (addLine d cid sub) t =
      accum (lookupD d t) (((tokensOf sub).filter (fun x => x == t)).map (fun _ => cid)) := by
  rw [addLine, lookupD_foldTokens]

theorem lookupD_foldDict (items : List (String × String)) (d : Dict) (t : String) :
    lookupD (foldDict items d) t = accum (lookupD d t) (occList items t) := by
  induction items generalizing d with
  | nil => simp [foldDict, occList, accum_nil_right]
  | cons p rest ih =>
    have hstep : foldDict (p :: rest) d = foldDict rest (addLine d p.1 p.2) := by
      rw [foldDict, List.foldl_cons, foldDict]
    rw [hstep, ih, lookupD_addLine, accum_assoc]
    simp only [occList, List.flatMap_cons]

theorem lookupD_foldDict_nil (items : List (String × String)) (t : String) :
    lookupD (foldDict items []) t =
      accum none (occList items t) := by
  rw [lookupD_foldDict]
  rfl

/-! ## Key lemmas: distinctness of dict keys -/

theorem keysD_addToken (d : Dict) (t cid : String) :
    keysD (addToken d t cid) = if t ∈ keysD d then keysD d else keysD d ++ [t] := by
  induction d with
  | nil => simp [addToken, keysD]
  | cons p rest ih =>
    obtain ⟨k, v⟩ := p
    by_cases h : k = t
    · subst h
      simp [addToken, keysD]
    · have hne : t ≠ k := Ne.symm h
      simp only [keysD, List.map_cons] at ih ⊢
      simp only [addToken, h, if_false, List.map_cons]
      by_cases hmem : t ∈ List.map Prod.fst rest
      · rw [ih, if_pos hmem, if_pos (List.mem_cons_of_mem _ hmem)]
      · rw [ih, if_neg hmem, if_neg (by simp [List.mem_cons, hne, hmem]), List.cons_append]

theorem nodup_keysD_addToken {d : Dict} (h : (keysD d).Nodup) (t cid : String) :
    (keysD (addToken d t cid)).Nodup := by
  rw [keysD_addToken]
  by_cases hmem : t ∈ keysD d
  · rwa [if_pos hmem]
  · rw [if_neg hmem, List.nodup_append]
    refine ⟨h, List.nodup_singleton t, ?_⟩
    intro a ha hat
    rw [List.mem_singleton] at hat
    subst hat
    exact hmem ha

theorem nodup_keysD_foldTokens {d : Dict} (h : (keysD d).Nodup) (toks : List String) (cid : String) :
    (keysD (toks.foldl (fun d tk => addToken d tk cid) d)).Nodup := by
  induction toks generalizing d with
  | nil => exact h
  | cons tk rest ih =>
    rw [List.foldl_cons]
    exact ih (nodup_keysD_addToken h tk cid)

theorem nodup_keysD_foldDict {d : Dict} (h : (keysD d).Nodup) (items : List (String × String)) :
    (keysD (foldDict items d)).Nodup := by
  induction items generalizing d with
  | nil => exact h
  | cons p rest ih =>
    rw [foldDict, List.foldl_cons]
    exact ih (nodup_keysD_foldTokens h (tokensOf p.2) p.1)

theorem lookupD_eq_some_of_mem {d : Dict} (hnd : (keysD d).Nodup) {t : String} {v : List String}
    (h : (t, v) ∈ d) : lookupD d t = some v := by
  induction d with
  | nil => cases h
  | cons p rest ih =>
    obtain ⟨k, w⟩ := p
    rcases List.mem_cons.mp h with heq | hmem
    · obtain ⟨rfl, rfl⟩ := Prod.mk.injEq .. ▸ heq
      injection heq with h1 h2
      simp [lookupD]
    · have hk : k ≠ t := by
        rintro rfl
        have : k ∈ keysD rest := by
          rw [keysD]
          exact List.mem_map.mpr ⟨(k, v), hmem, rfl⟩
        rw [keysD, List.map_cons] at hnd
        exact (List.nodup_cons.mp hnd).1 this
      rw [lookupD, if_neg hk]
      exact ih ((List.nodup_cons.mp (by rwa [keysD, List.map_cons] at hnd)).2) hmem

theorem filter_key_of_lookupD {d : Dict} (hnd : (keysD d).Nodup) {t : String} {v : List String}
    (h : lookupD d t = some v) : d.filter (fun p => p.1 == t) = [(t, v)] := by
  induction d with
  | nil => simp [lookupD] at h
  | cons p rest ih =>
    obtain ⟨k, w⟩ := p
    rw [keysD, List.map_cons, List.nodup_cons] at hnd
    by_cases hk : k = t
    · subst hk
      rw [lookupD, if_pos rfl] at h
      injection h with hv
      subst hv
      rw [List.filter_cons]
      simp only [beq_self_eq_true, if_pos]
      have hrest : rest.filter (fun p => p.1 == k) = [] := by
        rw [List.filter_eq_nil_iff]
        intro q hq hbeq
        exact hnd.1 (List.mem_map.mpr ⟨q, hq, (beq_iff_eq.mp hbeq)⟩)
      rw [hrest]
    · rw [lookupD, if_neg hk] at h
      rw [List.filter_cons]
      have hbf : ((k, w).1 == t) = false := beq_eq_false_iff_ne.mpr hk
      rw [if_neg (by simp [hbf])]
      exact ih hnd.2 h

/-! ## Order lemmas for the lexicographic comparison -/

theorem ltC_irrefl (l : List Char) : ltC l l = false := by
  induction l with
  | nil => rfl
  | cons a as ih => simp [ltC, ih]

theorem ltC_trichotomy (a b : List Char) : ltC a b = true ∨ a = b ∨ ltC b a = true := by
  induction a generalizing b with
  | nil => cases b <;> simp [ltC]
  | cons x xs ih =>
    cases b with
    | nil => simp [ltC]
    | cons y ys =>
      rcases lt_trichotomy x y with hxy | hxy | hxy
      · exact Or.inl (by simp [ltC, hxy])
      · subst hxy
        rcases ih ys with h1 | h1 | h1
        · exact Or.inl (by simp [ltC, h1])
        · exact Or.inr (Or.inl (by rw [h1]))
        · exact Or.inr (Or.inr (by simp [ltC, h1]))
      · exact Or.inr (Or.inr (by simp [ltC, hxy]))

theorem ltC_trans {a b c : List Char} (h1 : ltC a b = true) (h2 : ltC b c = true) :
    ltC a c = true := by
  induction a generalizing b c with
  | nil =>
    cases c with
    | nil => cases b <;> simp [ltC] at h1 h2
    | cons z zs => simp [ltC]
  | cons x xs ih =>
    cases b with
    | nil => simp [ltC] at h1
    | cons y ys =>
      cases c with
      | nil => simp [ltC] at h2
      | cons z zs =>
        rw [ltC] at h1 h2 ⊢
        rcases lt_trichotomy x y with hxy | hxy | hxy
        · rcases lt_trichotomy y z with hyz | hyz | hyz
          · simp [lt_trans hxy hyz]
          · subst hyz
            simp [hxy]
          · rw [if_neg (lt_asymm hyz), if_pos hyz] at h2
            cases h2
        · subst hxy
          rcases lt_trichotomy x z with hxz | hxz | hxz
          · simp [hxz]
          · subst hxz
            rw [if_neg (lt_irrefl x), if_neg (lt_irrefl x)] at h1 h2 ⊢
            exact ih h1 h2
          · rw [if_neg (lt_asymm hxz), if_pos hxz] at h2
            cases h2
        · rw [if_neg (lt_asymm hxy), if_pos hxy] at h1
          cases h1

theorem ltC_asymm {a b : List Char} (h : ltC a b = true) : ltC b a = false := by
  by_contra hc
  rw [Bool.not_eq_false] at hc
  have := ltC_trans h hc
  rw [ltC_irrefl] at this
  cases this

theorem leC_of_not_leC {a b : List Char} (h : ¬ leC a b = true) : leC b a = true := by
  have hba : ltC b a = true := by
    by_contra hb
    rw [Bool.not_eq_true] at hb
    rw [leC, hb] at h
    exact h rfl
  rw [leC, ltC_asymm hba]
  rfl

theorem leC_trans {a b c : List Char} (h1 : leC a b = true) (h2 : leC b c = true) :
    leC a c = true := by
  rw [leC, Bool.not_eq_true'] at h1 h2
  by_cases hca : ltC c a = true
  · rcases ltC_trichotomy a b with hab | hab | hab
    · rw [ltC_trans hca hab] at h2
      cases h2
    · subst hab
      rw [hca] at h2
      cases h2
    · rw [hab] at h1
      cases h1
  · rw [Bool.not_eq_true] at hca
    rw [leC, hca]
    rfl

theorem ltC_of_leC_ne {a b : List Char} (h1 : leC a b = true) (h2 : a ≠ b) : ltC a b = true := by
  rcases ltC_trichotomy a b with h | h | h
  · exact h
  · exact absurd h h2
  · rw [leC, h] at h1
    cases h1

/-! ## Sorting lemmas -/

theorem insertKey_perm (p : String × List String) (d : Dict) :
    List.Perm (insertKey p d) (p :: d) := by
  induction d with
  | nil => exact List.Perm.refl _
  | cons q rest ih =>
    rw [insertKey]
    by_cases h : leC p.1.data q.1.data = true
    · rw [if_pos h]
    · rw [if_neg h]
      exact (ih.cons q).trans (List.Perm.swap p q rest)

theorem sortDict_perm (d : Dict) : List.Perm (sortDict d) d := by
  induction d with
  | nil => exact List.Perm.refl _
  | cons p rest ih =>
    rw [sortDict, List.foldr_cons]
    exact (insertKey_perm p _).trans (ih.cons p)

theorem sorted_insertKey {p : String × List String} {d : Dict}
    (hd : d.Pairwise (fun x y => leC x.1.data y.1.data = true)) :
    (insertKey p d).Pairwise (fun x y => leC x.1.data y.1.data = true) := by
  induction d with
  | nil => simp [insertKey]
  | cons q rest ih =>
    rw [insertKey]
    rcases List.pairwise_cons.mp hd with ⟨hq, hrest⟩
    by_cases h : leC p.1.data q.1.data = true
    · rw [if_pos h]
      refine List.pairwise_cons.mpr ⟨?_, hd⟩
      intro y hy
      rcases List.mem_cons.mp hy with rfl | hy2
      · exact h
      · exact leC_trans h (hq y hy2)
    · rw [if_neg h]
      refine List.pairwise_cons.mpr ⟨?_, ih hrest⟩
      intro y hy
      rcases List.mem_cons.mp ((insertKey_perm p rest).mem_iff.mp hy) with rfl | hy2
      · exact leC_of_not_leC h
      · exact hq y hy2

theorem sorted_sortDict (d : Dict) :
    (sortDict d).Pairwise (fun x y => leC x.1.data y.1.data = true) := by
  induction d with
  | nil => simp [sortDict]
  | cons p rest ih =>
    rw [sortDict, List.foldr_cons]
    exact sorted_insertKey ih

theorem strict_sorted_sortDict {d : Dict} (hnd : (keysD d).Nodup) :
    (sortDict d).Pairwise (fun x y => ltC x.1.data y.1.data = true) := by
  have hperm : List.Perm (keysD (sortDict d)) (keysD d) := (sortDict_perm d).map Prod.fst
  have hnd2 : (keysD (sortDict d)).Nodup := hperm.nodup_iff.mpr hnd
  have hne : (sortDict d).Pairwise (fun x y => x.1 ≠ y.1) := by
    rw [keysD] at hnd2
    exact (List.pairwise_map.mp hnd2)
  have hle := sorted_sortDict d
  refine (hle.and hne).imp ?_
  rintro x y ⟨h1, h2⟩
  refine ltC_of_leC_ne h1 ?_
  intro hdata
  exact h2 (by
    have : String.mk x.1.data = String.mk y.1.data := by rw [hdata]
    simpa using this)

/-! ## Provenance: everything the scan stores is tab- and newline-free -/

theorem parseDataLine_ok_fields {line : List Char} {cid sub : String}
    (h : parseDataLine line = Except.ok (cid, sub)) :
    ('\t' ∉ cid.data ∧ ∀ x ∈ cid.data, x ∈ line) ∧
      ('\t' ∉ sub.data ∧ ∀ x ∈ sub.data, x ∈ line) := by
  rw [parseDataLine] at h
  split at h
  · rename_i cid0 mid sub0 heq
    injection h with h1
    obtain ⟨hc, hs⟩ := Prod.mk.injEq .. ▸ h1
    have hcid : cid0 ∈ splitOnC '\t' (stripC line) := by
      rw [heq]
      exact List.mem_cons_self _ _
    have hsub : sub0 ∈ splitOnC '\t' (stripC line) := by
      rw [heq]
      exact List.mem_cons_of_mem _ (List.mem_cons_of_mem _ (List.mem_cons_self _ _))
    constructor
    · constructor
      · intro hm
        rw [← hc] at hm
        exact (mem_splitOnC hcid).2 hm
      · intro x hx
        rw [← hc] at hx
        exact mem_stripC_subset ((mem_splitOnC hcid).1 x hx)
    · constructor
      · intro hm
        rw [← hs] at hm
        exact (mem_splitOnC hsub).2 hm
      · intro x hx
        rw [← hs] at hx
        exact mem_stripC_subset ((mem_splitOnC hsub).1 x hx)
  · cases h

theorem cleanStr_of_parsed_cid {line : List Char} {cid sub : String}
    (h : parseDataLine line = Except.ok (cid, sub)) (hnl : '\n' ∉ line) : cleanStr cid := by
  obtain ⟨⟨ht, hsubset⟩, _⟩ := parseDataLine_ok_fields h
  exact ⟨ht, fun hm => hnl (hsubset _ hm)⟩

theorem cleanStr_of_parsed_token {line : List Char} {cid sub tok : String}
    (h : parseDataLine line = Except.ok (cid, sub)) (hnl : '\n' ∉ line)
    (htok : tok ∈ tokensOf sub) : cleanStr tok := by
  obtain ⟨_, ⟨ht, hsubset⟩⟩ := parseDataLine_ok_fields h
  have hss := mem_tokensOf_subset htok
  constructor
  · intro hm
    exact ht (hss _ hm)
  · intro hm
    exact hnl (hsubset _ (hss _ hm))

theorem cleanDict_addToken {d : Dict} (hd : cleanDict d) {t cid : String}
    (ht : cleanStr t) (hc : cleanStr cid) : cleanDict (addToken d t cid) := by
  induction d with
  | nil =>
    intro p hp
    rw [addToken, List.mem_singleton] at hp
    subst hp
    exact ⟨ht, fun x hx => by
      rw [List.mem_singleton] at hx
      subst hx
      exact hc⟩
  | cons q rest ih =>
    obtain ⟨k, v⟩ := q
    have hq := hd (k, v) (List.mem_cons_self _ _)
    have hrest : cleanDict rest := fun p hp => hd p (List.mem_cons_of_mem _ hp)
    by_cases h : k = t
    · subst h
      intro p hp
      rw [addToken, if_pos rfl] at hp
      rcases List.mem_cons.mp hp with rfl | hp2
      · refine ⟨hq.1, ?_⟩
        intro x hx
        rcases List.mem_append.mp hx with hx1 | hx2
        · exact hq.2 x hx1
        · rw [List.mem_singleton] at hx2
          subst hx2
          exact hc
      · exact hrest p hp2
    · intro p hp
      rw [addToken, if_neg h] at hp
      rcases List.mem_cons.mp hp with rfl | hp2
      · exact hq
      · exact ih hrest p hp2

theorem cleanDict_addLine {d : Dict} (hd : cleanDict d) {cid sub : String}
    (hc : cleanStr cid) (htoks : ∀ tok ∈ tokensOf sub, cleanStr tok) :
    cleanDict (addLine d cid sub) := by
  rw [addLine]
  have : ∀ toks : List String, (∀ tok ∈ toks, cleanStr tok) → ∀ d0 : Dict, cleanDict d0 →
      cleanDict (toks.foldl (fun d t => addToken d t cid) d0) := by
    intro toks
    induction toks with
    | nil => intro _ d0 h0; exact h0
    | cons t rest ih =>
      intro hall d0 h0
      rw [List.foldl_cons]
      exact ih (fun tok hm => hall tok (List.mem_cons_of_mem _ hm))
        _ (cleanDict_addToken h0 (hall t (List.mem_cons_self _ _)) hc)
  exact this _ htoks d hd

/-! ## Rendering and re-reading the final file -/

theorem mem_joinBar {v : List String} {x : Char} (hx : x ∈ joinBar v) :
    x = '|' ∨ ∃ s ∈ v, x ∈ s.data := by
  induction v with
  | nil => cases hx
  | cons s rest ih =>
    cases rest with
    | nil =>
      rw [joinBar] at hx
      exact Or.inr ⟨s, List.mem_singleton.mpr rfl, hx⟩
    | cons s2 t =>
      rw [show joinBar (s :: s2 :: t) = s.data ++ ('|' :: joinBar (s2 :: t)) from rfl] at hx
      rcases List.mem_append.mp hx with hx1 | hx2
      · exact Or.inr ⟨s, List.mem_cons_self _ _, hx1⟩
      · rcases List.mem_cons.mp hx2 with rfl | hx3
        · exact Or.inl rfl
        · rcases ih hx3 with h | ⟨s3, hs3, hxs3⟩
          · exact Or.inl h
          · exact Or.inr ⟨s3, List.mem_cons_of_mem _ hs3, hxs3⟩

theorem renderEntry_no_newline {p : String × List String}
    (hk : cleanStr p.1) (hv : ∀ cid ∈ p.2, cleanStr cid) : '\n' ∉ renderEntry p := by
  intro hm
  rw [renderEntry] at hm
  rcases List.mem_append.mp hm with h1 | h2
  · exact hk.2 h1
  · rcases List.mem_cons.mp h2 with heq | h3
    · cases heq
    · rcases mem_joinBar h3 with heq | ⟨s, hs, hxs⟩
      · cases heq
      · exact (hv s hs).2 hxs

theorem keyOfLine_renderEntry {p : String × List String} (h : '\t' ∉ p.1.data) :
    keyOfLine (renderEntry p) = p.1.data := by
  rw [renderEntry, keyOfLine, splitOnC_append_cons h]
  rfl

theorem dataLines_finalContent {d : Dict} (h : cleanDict d) :
    dataLines (finalContent d) = (sortDict d).map renderEntry := by
  have hclean2 : cleanDict (sortDict d) := fun p hp => h p ((sortDict_perm d).mem_iff.mp hp)
  have hlines : ∀ l ∈ finalHeader :: (sortDict d).map renderEntry, '\n' ∉ l := by
    intro l hl
    rcases List.mem_cons.mp hl with rfl | hl2
    · intro hm
      rw [finalHeader] at hm
      revert hm
      decide
    · obtain ⟨p, hp, rfl⟩ := List.mem_map.mp hl2
      exact renderEntry_no_newline (hclean2 p hp).1 (hclean2 p hp).2
  rw [finalContent, dataLines, fileLines_linesToContent hlines, List.drop_one, List.tail_cons]

/-! ## Structure of the inversion scan -/

theorem buildIndex_all_ok {α : Type} (f : α → List Char) (g : α → String × String)
    (xs : List α) (h : ∀ a ∈ xs, parseDataLine (f a) = Except.ok (g a)) (d : Dict) :
    buildIndex (xs.map f) d = Except.ok (foldDict (xs.map g) d) := by
  induction xs generalizing d with
  | nil => rfl
  | cons a rest ih =>
    rw [List.map_cons, buildIndex, h a (List.mem_cons_self _ _)]
    rw [List.map_cons, foldDict, List.foldl_cons]
    exact ih (fun b hb => h b (List.mem_cons_of_mem _ hb)) _

theorem buildIndex_first_error {lines : List (List Char)} {good : List (List Char)}
    {bad : List Char} {rest : List (List Char)} {m : String}
    (hsplit : lines = good ++ bad :: rest)
    (hgood : ∀ l ∈ good, ∃ p, parseDataLine l = Except.ok p)
    (hbad : parseDataLine bad = Except.error m) (d : Dict) :
    buildIndex lines d = Except.error m := by
  subst hsplit
  induction good generalizing d with
  | nil =>
    rw [List.nil_append, buildIndex, hbad]
  | cons l ls ih =>
    obtain ⟨p, hp⟩ := hgood l (List.mem_cons_self _ _)
    rw [List.cons_append, buildIndex, hp]
    exact ih (fun l2 hl2 => hgood l2 (List.mem_cons_of_mem _ hl2)) _

theorem parseDataLine_error_of_not_three {line : List Char}
    (h : (splitOnC '\t' (stripC line)).length ≠ 3) :
    parseDataLine line = Except.error (unpackMsg (splitOnC '\t' (stripC line)).length) := by
  rw [parseDataLine]
  cases hs : splitOnC '\t' (stripC line) with
  | nil => rfl
  | cons a t1 =>
    cases t1 with
    | nil => rfl
    | cons b t2 =>
      cases t2 with
      | nil => rfl
      | cons c3 t3 =>
        cases t3 with
        | nil =>
          rw [hs] at h
          simp at h
        | cons e t4 => rfl

/-! ## Assembling the run -/

theorem mem_csvField {s : String} {x : Char} (hx : x ∈ csvField s) : x ∈ s.data ∨ x = '"' := by
  rw [csvField] at hx
  by_cases hq : needsQuote s.data = true
  · rw [if_pos hq] at hx
    rw [quoteField] at hx
    rcases List.mem_append.mp hx with h1 | h2
    · rcases List.mem_cons.mp h1 with rfl | h3
      · exact Or.inr rfl
      · obtain ⟨c, hc, hxc⟩ := List.mem_flatMap.mp h3
        by_cases hcq : c = '"'
        · rw [if_pos hcq] at hxc
          rcases List.mem_cons.mp hxc with rfl | h4
          · exact Or.inr rfl
          · rw [List.mem_singleton] at h4
            exact Or.inr h4
        · rw [if_neg hcq] at hxc
          rw [List.mem_singleton] at hxc
          subst hxc
          exact Or.inl hc
    · rw [List.mem_singleton] at h2
      exact Or.inr h2
  · rw [if_neg hq] at hx
    exact Or.inl hx

theorem writeRow_no_newline {rec : FilteredRecord} (h1 : '\n' ∉ rec.complex_id.data)
    (h2 : '\n' ∉ rec.complex_name.data) (h3 : '\n' ∉ rec.subunits_uniprot_id.data) :
    '\n' ∉ writeRow rec := by
  intro hm
  rw [writeRow] at hm
  have hq : ('\n' : Char) ≠ '"' := by decide
  rcases List.mem_append.mp hm with ha | hb
  · rcases mem_csvField ha with h | h
    · exact h1 h
    · exact hq h
  · rcases List.mem_cons.mp hb with heq | hb2
    · cases heq
    · rcases List.mem_append.mp hb2 with hc | hd
      · rcases mem_csvField hc with h | h
        · exact h2 h
        · exact hq h
      · rcases List.mem_cons.mp hd with heq | hd2
        · cases heq
        · rcases mem_csvField hd2 with h | h
          · exact h3 h
          · exact hq h

theorem fileLines_smaContent {recs : List FilteredRecord}
    (h : ∀ rec ∈ recs, '\n' ∉ writeRow rec) :
    fileLines (smaContent recs) = smaHeader :: recs.map writeRow := by
  rw [smaContent]
  apply fileLines_linesToContent
  intro l hl
  rcases List.mem_cons.mp hl with rfl | hl2
  · intro hm
    rw [smaHeader] at hm
    revert hm
    decide
  · obtain ⟨rec, hrec, rfl⟩ := List.mem_map.mp hl2
    exact h rec hrec

theorem dataLines_smaContent {recs : List FilteredRecord}
    (h : ∀ rec ∈ recs, '\n' ∉ writeRow rec) :
    dataLines (smaContent recs) = recs.map writeRow := by
  rw [dataLines, fileLines_smaContent h, List.drop_one, List.tail_cons]

theorem cleanRowB_no_newline {r : Row} (h : cleanRowB r = true) :
    '\n' ∉ writeRow (project r) := by
  obtain ⟨h1, h2, h3, _, _⟩ := cleanRowB_parts h
  exact writeRow_no_newline (cleanField_not_mem h1).2.1 (cleanField_not_mem h2).2.1
    (cleanField_not_mem h3).2.1

theorem buildIndex_clean_rows {rows : List Row}
    (h : ∀ r ∈ rows, r.organism = "Human" → cleanRowB r = true) :
    buildIndex (dataLines (smaContent ((filterHuman rows).map project))) [] =
      Except.ok (foldDict (parsedItems rows) []) := by
  have hret : ∀ r ∈ filterHuman rows, cleanRowB r = true := by
    intro r hr
    rw [filterHuman, List.mem_filter] at hr
    exact h r hr.1 (by simpa using hr.2)
  have hnl : ∀ rec ∈ (filterHuman rows).map project, '\n' ∉ writeRow rec := by
    intro rec hrec
    obtain ⟨r, hr, rfl⟩ := List.mem_map.mp hrec
    exact cleanRowB_no_newline (hret r hr)
  rw [dataLines_smaContent hnl, List.map_map]
  rw [parsedItems]
  exact buildIndex_all_ok _ _ _ (fun r hr => parse_writeRow (hret r hr)) []

theorem occList_map_congr {α : Type} (xs : List α) (g1 g2 : α → String × String)
    (h : ∀ a ∈ xs, (g1 a).1 = (g2 a).1 ∧ tokensOf (g1 a).2 = tokensOf (g2 a).2) (t : String) :
    occList (xs.map g1) t = occList (xs.map g2) t := by
  induction xs with
  | nil => rfl
  | cons a rest ih =>
    rw [List.map_cons, List.map_cons, occList, List.flatMap_cons, occList, List.flatMap_cons]
    obtain ⟨hfst, htok⟩ := h a (List.mem_cons_self _ _)
    rw [hfst, htok]
    have := ih (fun b hb => h b (List.mem_cons_of_mem _ hb))
    rw [occList, occList] at this
    rw [this]

theorem occList_parsedItems (rows : List Row) (t : String) :
    occList (parsedItems rows) t = occList (humanItems rows) t := by
  rw [parsedItems, humanItems]
  apply occList_map_congr
  intro r hr
  refine ⟨rfl, ?_⟩
  show tokensOf (String.mk (rstripC r.subunits_uniprot_id.data)) = tokensOf r.subunits_uniprot_id
  rw [tokensOf, tokensOf]
  show tokensOfC (rstripC r.subunits_uniprot_id.data) = tokensOfC r.subunits_uniprot_id.data
  exact tokensOfC_rstripC _

theorem cleanDict_foldDict {items : List (String × String)} {d : Dict} (hd : cleanDict d)
    (h : ∀ p ∈ items, cleanStr p.1 ∧ ∀ tok ∈ tokensOf p.2, cleanStr tok) :
    cleanDict (foldDict items d) := by
  induction items generalizing d with
  | nil => exact hd
  | cons p rest ih =>
    rw [foldDict, List.foldl_cons]
    obtain ⟨hc, htoks⟩ := h p (List.mem_cons_self _ _)
    exact ih (cleanDict_addLine hd hc htoks) (fun q hq => h q (List.mem_cons_of_mem _ hq))

theorem buildIndex_ok_eq {lines : List (List Char)} {d D : Dict}
    (h : buildIndex lines d = Except.ok D) :
    D = foldDict (lines.filterMap (fun l => (parseDataLine l).toOption)) d := by
  induction lines generalizing d with
  | nil =>
    rw [buildIndex] at h
    injection h with h1
    rw [← h1]
    rfl
  | cons l ls ih =>
    rw [buildIndex] at h
    cases hp : parseDataLine l with
    | error m =>
      rw [hp] at h
      cases h
    | ok p =>
      rw [hp] at h
      rw [List.filterMap_cons, hp]
      show D = foldDict (p :: ls.filterMap (fun l => (parseDataLine l).toOption)) d
      rw [foldDict, List.foldl_cons]
      exact ih h

theorem runDict_clean_nodup {content : List Char} {D : Dict}
    (h : buildIndex (dataLines content) [] = Except.ok D) :
    cleanDict D ∧ (keysD D).Nodup := by
  have hD := buildIndex_ok_eq h
  subst hD
  constructor
  · apply cleanDict_foldDict
    · intro p hp
      cases hp
    · intro p hp
      obtain ⟨l, hl, hfl⟩ := List.mem_filterMap.mp hp
      have hnl : '\n' ∉ l := by
        rw [dataLines] at hl
        exact mem_fileLines_no_newline (List.drop_subset _ _ hl)
      have hok : parseDataLine l = Except.ok p := by
        cases hpd : parseDataLine l with
        | error m =>
          rw [hpd] at hfl
          cases hfl
        | ok q =>
          rw [hpd] at hfl
          injection hfl with h1
          rw [h1]
      obtain ⟨cid, sub⟩ := p
      exact ⟨cleanStr_of_parsed_cid hok hnl,
        fun tok htok => cleanStr_of_parsed_token hok hnl htok⟩
  · exact nodup_keysD_foldDict (by simp [keysD]) _

/-! ## Remaining helpers for the claims -/

theorem no_newline_of_all {l : List Char} (h : l.all (fun c => !(c = '\n')) = true) :
    '\n' ∉ l := by
  intro hm
  have := List.all_eq_true.mp h _ hm
  simp at this

theorem string_data_inj {s t : String} (h : s.data = t.data) : s = t := by
  cases s
  cases t
  exact congrArg String.mk h

theorem lookupD_some_mem {d : Dict} {t : String} {v : List String}
    (h : lookupD d t = some v) : (t, v) ∈ d := by
  induction d with
  | nil => cases h
  | cons p rest ih =>
    obtain ⟨k, w⟩ := p
    by_cases hk : k = t
    · subst hk
      rw [lookupD, if_pos rfl] at h
      injection h with hv
      subst hv
      exact List.mem_cons_self _ _
    · rw [lookupD, if_neg hk] at h
      exact List.mem_cons_of_mem _ (ih h)

theorem occList_ne_nil_of_mem {items : List (String × String)} {t : String}
    (h : ∃ p ∈ items, t ∈ tokensOf p.2) : occList items t ≠ [] := by
  obtain ⟨p, hp, htok⟩ := h
  rw [occList]
  intro hnil
  rw [List.flatMap_eq_nil_iff] at hnil
  have := hnil p hp
  rw [List.map_eq_nil_iff, List.filter_eq_nil_iff] at this
  exact this t htok (by simp)

theorem mem_addToken_cases {d : Dict} {t cid : String} {q : String × List String}
    (hq : q ∈ addToken d t cid) :
    q ∈ d ∨ (∃ v, (t, v) ∈ d ∧ q = (t, v ++ [cid])) ∨ q = (t, [cid]) := by
  induction d with
  | nil =>
    rw [addToken, List.mem_singleton] at hq
    exact Or.inr (Or.inr hq)
  | cons p rest ih =>
    obtain ⟨k, v⟩ := p
    by_cases hk : k = t
    · subst hk
      rw [addToken, if_pos rfl] at hq
      rcases List.mem_cons.mp hq with rfl | hq2
      · exact Or.inr (Or.inl ⟨v, List.mem_cons_self _ _, rfl⟩)
      · exact Or.inl (List.mem_cons_of_mem _ hq2)
    · rw [addToken, if_neg hk] at hq
      rcases List.mem_cons.mp hq with rfl | hq2
      · exact Or.inl (List.mem_cons_self _ _)
      · rcases ih hq2 with h1 | ⟨w, hw, heq⟩ | h3
        · exact Or.inl (List.mem_cons_of_mem _ h1)
        · exact Or.inr (Or.inl ⟨w, List.mem_cons_of_mem _ hw, heq⟩)
        · exact Or.inr (Or.inr h3)

theorem foldSteps_invariant (P : String → String → Prop)
    (st : List (String × String)) (d : Dict)
    (hd : ∀ q ∈ d, q.2 ≠ [] ∧ ∀ cid ∈ q.2, P cid q.1)
    (hst : ∀ s ∈ st, P s.1 s.2) :
    ∀ q ∈ st.foldl (fun d s => addToken d s.2 s.1) d, q.2 ≠ [] ∧ ∀ cid ∈ q.2, P cid q.1 := by
  induction st generalizing d with
  | nil => exact hd
  | cons s rest ih =>
    rw [List.foldl_cons]
    apply ih
    · intro q hq
      rcases mem_addToken_cases hq with h1 | ⟨v, hv, heq⟩ | h3
      · exact hd q h1
      · subst heq
        obtain ⟨hne, hall⟩ := hd (s.2, v) hv
        refine ⟨by simp, ?_⟩
        intro cid hcid
        rcases List.mem_append.mp hcid with hc1 | hc2
        · exact hall cid hc1
        · rw [List.mem_singleton] at hc2
          subst hc2
          exact hst s (List.mem_cons_self _ _)
      · subst h3
        refine ⟨by simp, ?_⟩
        intro cid hcid
        rw [List.mem_singleton] at hcid
        subst hcid
        exact hst s (List.mem_cons_self _ _)
    · intro s2 hs2
      exact hst s2 (List.mem_cons_of_mem _ hs2)

theorem mem_stepsOf {lines : List (List Char)} {s : String × String}
    (hs : s ∈ stepsOf lines) :
    ∃ l ∈ lines, ∃ sub : String, parseDataLine l = Except.ok (s.1, sub) ∧ s.2 ∈ tokensOf sub := by
  rw [stepsOf] at hs
  obtain ⟨p, hp, hsp⟩ := List.mem_flatMap.mp hs
  obtain ⟨tok, htok, heq⟩ := List.mem_map.mp hsp
  rw [itemsOf] at hp
  obtain ⟨l, hl, hfl⟩ := List.mem_filterMap.mp hp
  have hlmem : l ∈ lines := List.Sublist.mem hl (List.takeWhile_sublist _)
  have hok : parseDataLine l = Except.ok p := by
    cases hpd : parseDataLine l with
    | error m =>
      rw [hpd] at hfl
      cases hfl
    | ok q =>
      rw [hpd] at hfl
      injection hfl with h1
      rw [h1]
  refine ⟨l, hlmem, p.2, ?_, ?_⟩
  · rw [← heq]
    exact hok
  · rw [← heq]
    exact htok

/-- C2: a row of the input is written to the intermediate output file if
and only if its organism field equals the string "Human" exactly
(case-sensitive); no other data rows appear, and the retained rows keep
their input order: the data lines of the intermediate file are exactly
the rendered retained rows, in order.  The hypothesis pins each retained
record to a single physical line (no newline inside a field). -/
theorem c2_filter_correctness (rows : List Row)
    (h : ∀ r ∈ rows, r.organism = "Human" → noNewlineRowB r = true) :
    dataLines (smaContent ((filterHuman rows).map project)) =
      (rows.filter (fun r => r.organism == "Human")).map (fun r => writeRow (project r)) := by
  have hnl : ∀ rec ∈ (filterHuman rows).map project, '\n' ∉ writeRow rec := by
    intro rec hrec
    obtain ⟨r, hr, rfl⟩ := List.mem_map.mp hrec
    rw [filterHuman, List.mem_filter] at hr
    have hb := h r hr.1 (by simpa using hr.2)
    rw [noNewlineRowB] at hb
    simp only [Bool.and_eq_true] at hb
    exact writeRow_no_newline (no_newline_of_all hb.1.1) (no_newline_of_all hb.1.2)
      (no_newline_of_all hb.2)
  rw [dataLines_smaContent hnl, List.map_map]
  rfl

/-- C2 witness: a three-row input with organisms "Human", "Mouse" and
"human"; only the first row is written. -/
theorem c2_filter_correctness_witness :
    (∀ r ∈ ([⟨"c1", "n1", "Human", "P1"⟩, ⟨"c2", "n2", "Mouse", "Q1"⟩,
        ⟨"c3", "n3", "human", "R1"⟩] : List Row),
      r.organism = "Human" → noNewlineRowB r = true) ∧
    dataLines (smaContent ((filterHuman [⟨"c1", "n1", "Human", "P1"⟩,
        ⟨"c2", "n2", "Mouse", "Q1"⟩, ⟨"c3", "n3", "human", "R1"⟩]).map project)) =
      (([⟨"c1", "n1", "Human", "P1"⟩, ⟨"c2", "n2", "Mouse", "Q1"⟩,
        ⟨"c3", "n3", "human", "R1"⟩] : List Row).filter
          (fun r => r.organism == "Human")).map (fun r => writeRow (project r)) :=
  ⟨by decide, c2_filter_correctness _ (by decide)⟩

/-- C6 counterexample: a complex name containing a tab is not written
byte-for-byte: `to_csv` quotes it, so the written row differs from the
as-is tab join of the three fields. -/
theorem c6_quoting_counterexample :
    writeRow ⟨"c1", "a\tb", "P1"⟩ ≠
      ("c1" : String).data ++ ('\t' :: (("a\tb" : String).data ++ ('\t' :: ("P1" : String).data))) := by
  decide

/-- C6 amended: a FilteredRecord whose three fields contain no tab, no
line break and no double quote is written byte-for-byte as-is into its
tab-separated row; a field containing one of those characters is CSV
quoted (wrapped in double quotes, embedded quotes doubled) instead. -/
theorem c6_writer_as_is_amended (rec : FilteredRecord)
    (h1 : cleanFieldB rec.complex_id = true) (h2 : cleanFieldB rec.complex_name = true)
    (h3 : cleanFieldB rec.subunits_uniprot_id = true) :
    writeRow rec =
      rec.complex_id.data ++ ('\t' :: (rec.complex_name.data ++
        ('\t' :: rec.subunits_uniprot_id.data))) := by
  rw [writeRow, csvField_of_clean h1, csvField_of_clean h2, csvField_of_clean h3]

/-- C6 witness: a clean record is written as the plain tab join. -/
theorem c6_writer_as_is_witness :
    cleanFieldB ("name" : String) = true ∧
    writeRow ⟨"c1", "name", "P1;P2"⟩ =
      ("c1" : String).data ++ ('\t' :: (("name" : String).data ++
        ('\t' :: ("P1;P2" : String).data))) :=
  ⟨by decide, c6_writer_as_is_amended ⟨"c1", "name", "P1;P2"⟩ (by decide) (by decide) (by decide)⟩

/-- C8: one run is a function of the input alone except that a failed
run leaves the final file as it was; running the pipeline a second time
on the same input reproduces byte-identical output files, whatever the
files held before. -/
theorem c8_idempotence (rr : ReadResult) (fs : FS) : runFS rr (runFS rr fs) = runFS rr fs := by
  cases rr with
  | notFound => rfl
  | parseError => rfl
  | table rows =>
    cases hb : buildIndex (dataLines (smaContent ((filterHuman rows).map project))) [] with
    | error m => simp [runFS, hb]
    | ok d => simp [runFS, hb]

/-- C4: evaluation at the failing input.  A retained row with an empty
subunits field is written as a line ending in a tab; `line.strip()`
swallows that tab, the three-way unpack raises `ValueError`, the generic
handler prints it, and the run stops without writing the final file — so
the row does not merely contribute zero entries: it aborts the whole
run, and the other retained row's token is lost with it.  The same
input without the empty-subunits row completes normally. -/
theorem c4_empty_subunits_run_aborts :
    (processTable [⟨"c1", "n1", "Human", ""⟩, ⟨"c2", "n2", "Human", "P1"⟩] none).final = none ∧
    (processTable [⟨"c1", "n1", "Human", ""⟩, ⟨"c2", "n2", "Human", "P1"⟩] none).errMsg =
      some ("An unexpected error occurred: not enough values to unpack (expected 3, got 2)") ∧
    (processTable [⟨"c2", "n2", "Human", "P1"⟩] none).final =
      some (finalContent [("P1", ["c2"])]) := by
  decide

/-- C5: when some data line of the intermediate file does not split into
exactly three tab-separated fields (the earlier lines all parsing), the
run stops at that line: the final file is never written and the printed
diagnostic is the `ValueError` text describing the wrong field count —
nothing is silently mis-split or truncated.  The retained rows are
assumed free of carriage returns (`noCRRowB`) so that the physical lines
the model reconstructs are exactly the lines Python's universal-newlines
file iteration yields; the hypothesis only scopes the newline model and
is not needed by the derivation itself. -/
theorem c5_malformed_row_fails (rows : List Row) (good : List (List Char)) (bad : List Char)
    (rest : List (List Char))
    (hcr : ∀ r ∈ rows, r.organism = "Human" → noCRRowB r = true)
    (hsplit : dataLines (smaContent ((filterHuman rows).map project)) = good ++ bad :: rest)
    (hgood : ∀ l ∈ good, ∃ p, parseDataLine l = Except.ok p)
    (hbad : (splitOnC '\t' (stripC bad)).length ≠ 3) :
    (processTable rows none).final = none ∧
      (processTable rows none).errMsg =
        some ("An unexpected error occurred: " ++ unpackMsg (splitOnC '\t' (stripC bad)).length) := by
  have herr := buildIndex_first_error hsplit hgood (parseDataLine_error_of_not_three hbad) []
  have hres : processTable rows none =
      ⟨some (smaContent ((filterHuman rows).map project)), none,
        some ("An unexpected error occurred: " ++ unpackMsg (splitOnC '\t' (stripC bad)).length)⟩ := by
    simp only [processTable]
    rw [herr]
  rw [hres]
  exact ⟨rfl, rfl⟩

/-- C5 witness: a complex name containing a tab yields a quoted field,
the re-read line splits into four pieces, and the run aborts. -/
theorem c5_malformed_row_witness :
    (splitOnC '\t' (stripC (("c1\t\"a\tb\"\tP1" : String).data))).length ≠ 3 ∧
    (processTable [⟨"c1", "a\tb", "Human", "P1"⟩] none).final = none :=
  ⟨by decide, (c5_malformed_row_fails [⟨"c1", "a\tb", "Human", "P1"⟩] []
      (("c1\t\"a\tb\"\tP1" : String).data) [] (by decide) (by decide)
      (fun l hl => absurd hl (List.not_mem_nil l)) (by decide)).1⟩

/-- C9: for any parsed table whose header contains the four required
column names — wherever they sit and whatever extra columns exist — the
intermediate file consists of the fixed three-column header line
followed by one data row per retained row, in order, each carrying
exactly complex_id, complex_name, subunits_uniprot_id in that order
(three tab-separated fields).  Retained rows are assumed clean so that
each occupies one unquoted line. -/
theorem c9_schema_projection (header : List String) (cells : List (List String))
    (rows : List Row) (hx : extractRows header cells = some rows)
    (hclean : ∀ r ∈ rows, r.organism = "Human" → cleanRowB r = true) :
    fileLines (smaContent ((filterHuman rows).map project)) =
      smaHeader :: (filterHuman rows).map (fun r =>
        r.complex_id.data ++ ('\t' :: (r.complex_name.data ++
          ('\t' :: r.subunits_uniprot_id.data)))) ∧
    ∀ l ∈ dataLines (smaContent ((filterHuman rows).map project)),
      (splitOnC '\t' l).length = 3 := by
  have hret : ∀ r ∈ filterHuman rows, cleanRowB r = true := by
    intro r hr
    rw [filterHuman, List.mem_filter] at hr
    exact hclean r hr.1 (by simpa using hr.2)
  have hnl : ∀ rec ∈ (filterHuman rows).map project, '\n' ∉ writeRow rec := by
    intro rec hrec
    obtain ⟨r, hr, rfl⟩ := List.mem_map.mp hrec
    exact cleanRowB_no_newline (hret r hr)
  have hfl : fileLines (smaContent ((filterHuman rows).map project)) =
      smaHeader :: (filterHuman rows).map (fun r => writeRow (project r)) := by
    rw [fileLines_smaContent hnl, List.map_map]
    rfl
  have hplain : ∀ r ∈ filterHuman rows, writeRow (project r) =
      r.complex_id.data ++ ('\t' :: (r.complex_name.data ++
        ('\t' :: r.subunits_uniprot_id.data))) := by
    intro r hr
    obtain ⟨h1, h2, h3, _, _⟩ := cleanRowB_parts (hret r hr)
    exact writeRow_of_clean h1 h2 h3
  constructor
  · rw [hfl]
    congr 1
    exact List.map_congr_left hplain
  · intro l hl
    rw [dataLines, hfl, List.drop_one, List.tail_cons] at hl
    obtain ⟨r, hr, rfl⟩ := List.mem_map.mp hl
    obtain ⟨h1, h2, h3, _, _⟩ := cleanRowB_parts (hret r hr)
    rw [hplain r hr]
    rw [splitOnC_append_cons (cleanField_not_mem h1).1,
      splitOnC_append_cons (cleanField_not_mem h2).1,
      splitOnC_eq_single (cleanField_not_mem h3).1]
    rfl

/-- C9 witness: required columns scattered among extras still yield the
fixed three-column intermediate file. -/
theorem c9_schema_projection_witness :
    extractRows ["extra", "subunits_uniprot_id", "complex_id", "organism", "complex_name"]
        [["x", "P1;P2", "c1", "Human", "n1"]] =
      some [⟨"c1", "n1", "Human", "P1;P2"⟩] ∧
    fileLines (smaContent ((filterHuman [⟨"c1", "n1", "Human", "P1;P2"⟩]).map project)) =
      smaHeader :: (filterHuman [⟨"c1", "n1", "Human", "P1;P2"⟩]).map (fun r =>
        r.complex_id.data ++ ('\t' :: (r.complex_name.data ++
          ('\t' :: r.subunits_uniprot_id.data)))) :=
  ⟨by rfl, (c9_schema_projection ["extra", "subunits_uniprot_id", "complex_id", "organism",
      "complex_name"] [["x", "P1;P2", "c1", "Human", "n1"]] [⟨"c1", "n1", "Human", "P1;P2"⟩]
      (by rfl) (by decide)).1⟩

/-- C3: whenever the run writes the final file, the protein identifiers
of its data rows (the first tab-separated field of each line) are
pairwise strictly increasing in lexicographic code-point order — so they
are in non-decreasing order with no duplicate keys.  This needs no
assumption on the input rows: every stored key comes out of splitting,
keys of the dict are distinct by construction, and the emitted order is
the sorted key order. -/
theorem c3_sort_order (rows : List Row) (c : List Char)
    (h : (processTable rows none).final = some c) :
    ((dataLines c).map keyOfLine).Pairwise (fun a b => ltC a b = true) := by
  cases hb : buildIndex (dataLines (smaContent ((filterHuman rows).map project))) [] with
  | error m =>
    simp only [processTable, hb] at h
    cases h
  | ok d =>
    simp only [processTable, hb] at h
    injection h with hc
    subst hc
    obtain ⟨hclean, hnodup⟩ := runDict_clean_nodup hb
    have hcleanS : cleanDict (sortDict d) := fun p hp => hclean p ((sortDict_perm d).mem_iff.mp hp)
    rw [dataLines_finalContent hclean, List.map_map, List.pairwise_map]
    refine (strict_sorted_sortDict hnodup).imp_of_mem ?_
    intro a b ha hb2 hlt
    show ltC (keyOfLine (renderEntry a)) (keyOfLine (renderEntry b)) = true
    rw [keyOfLine_renderEntry (hcleanS a ha).1.1, keyOfLine_renderEntry (hcleanS b hb2).1.1]
    exact hlt

/-- C3 witness: a run with two tokens emits them in increasing order. -/
theorem c3_sort_order_witness :
    (processTable [⟨"c1", "n", "Human", "P2;P1"⟩] none).final =
      some (linesToContent [finalHeader, ("P1\tc1").data, ("P2\tc1").data]) ∧
    ((dataLines (linesToContent [finalHeader, ("P1\tc1").data, ("P2\tc1").data])).map
        keyOfLine).Pairwise (fun a b => ltC a b = true) :=
  ⟨by decide, c3_sort_order [⟨"c1", "n", "Human", "P2;P1"⟩]
    (linesToContent [finalHeader, ("P1\tc1").data, ("P2\tc1").data]) (by decide)⟩

/-- C10: at every point of the inversion scan (after any number `n` of
elementary token steps) and hence also after the final sort, every dict
entry has a non-empty id list, and every id stored under a key is the
first tab-separated field of some data line whose subunits field
contains that key as a trimmed token: entries are only ever created
together with an id append, and no id is invented. -/
theorem c10_index_soundness (lines : List (List Char)) (n : Nat) (k : String) (v : List String)
    (h : (k, v) ∈ dictAfter lines n ∨ (k, v) ∈ sortDict (dictAfter lines n)) :
    v ≠ [] ∧ ∀ cid ∈ v, ∃ l ∈ lines, ∃ sub : String,
      parseDataLine l = Except.ok (cid, sub) ∧ k ∈ tokensOf sub := by
  have hmem : (k, v) ∈ dictAfter lines n := by
    rcases h with h1 | h2
    · exact h1
    · exact (sortDict_perm _).mem_iff.mp h2
  rw [dictAfter] at hmem
  have hinv := foldSteps_invariant
    (fun cid key => ∃ l ∈ lines, ∃ sub : String,
      parseDataLine l = Except.ok (cid, sub) ∧ key ∈ tokensOf sub)
    ((stepsOf lines).take n) []
    (by intro q hq; cases hq)
    (by intro s hs; exact mem_stepsOf (List.take_subset n _ hs))
  exact hinv (k, v) hmem

/-- C10 witness: one line, one step; the single entry is sound. -/
theorem c10_index_soundness_witness :
    (("P1", ["c1"]) ∈ dictAfter [("c1\tn\tP1" : String).data] 1 ∨
      ("P1", ["c1"]) ∈ sortDict (dictAfter [("c1\tn\tP1" : String).data] 1)) ∧
    (["c1"] ≠ [] ∧ ∀ cid ∈ ["c1"], ∃ l ∈ [("c1\tn\tP1" : String).data], ∃ sub : String,
      parseDataLine l = Except.ok (cid, sub) ∧ "P1" ∈ tokensOf sub) :=
  ⟨Or.inl (by decide),
    c10_index_soundness [("c1\tn\tP1" : String).data] 1 ("P1") ["c1"] (Or.inl (by decide))⟩

/-- C1 counterexample: the claim fails as stated.  With a retained row
whose subunits field is empty, its intermediate line ends in a tab that
`line.strip()` removes, the three-way unpack fails, and the whole run
aborts before writing the final file — so the token "P9" of the other
retained row, although a non-empty trimmed token of a retained row, has
no row in any final output (none is written). -/
theorem c1_empty_subunits_counterexample :
    "P9" ∈ tokensOf ("P9" : String) ∧
    (processTable [⟨"k1", "m1", "Human", ""⟩, ⟨"k2", "m2", "Human", "P9"⟩] none).final = none := by
  decide

/-- C1 amended: provided every retained row is clean — its three written
fields contain no tab, newline, CR or double quote, its complex id
starts with a non-whitespace character, and its subunits field contains
a non-whitespace character — the run completes, and for every non-empty
trimmed token `t` of any retained row the final file has exactly one
data line keyed `t`, whose id list is precisely the complex ids of the
retained rows in top-to-bottom order, one copy per occurrence of `t`
among that row's trimmed tokens. -/
theorem c1_inversion_completeness_amended (rows : List Row)
    (hclean : ∀ r ∈ rows, r.organism = "Human" → cleanRowB r = true)
    (r : Row) (hr : r ∈ rows) (horg : r.organism = "Human")
    (t : String) (ht : t ∈ tokensOf r.subunits_uniprot_id) :
    ∃ c, (processTable rows none).final = some c ∧
      (dataLines c).filter (fun l => keyOfLine l == t.data) =
        [renderEntry (t, occList (humanItems rows) t)] := by
  have hb := buildIndex_clean_rows hclean
  have hres : processTable rows none =
      ⟨some (smaContent ((filterHuman rows).map project)),
        some (finalContent (foldDict (parsedItems rows) [])), none⟩ := by
    simp only [processTable]
    rw [hb]
  refine ⟨finalContent (foldDict (parsedItems rows) []), by rw [hres], ?_⟩
  obtain ⟨hcleanD, hnodup⟩ := runDict_clean_nodup hb
  rw [dataLines_finalContent hcleanD]
  have hrf : r ∈ filterHuman rows := by
    rw [filterHuman, List.mem_filter]
    exact ⟨hr, by simp [horg]⟩
  have hocc_ne : occList (parsedItems rows) t ≠ [] := by
    rw [occList_parsedItems]
    apply occList_ne_nil_of_mem
    refine ⟨(r.complex_id, r.subunits_uniprot_id), ?_, ht⟩
    rw [humanItems]
    exact List.mem_map.mpr ⟨r, hrf, rfl⟩
  have hlook : lookupD (foldDict (parsedItems rows) []) t =
      some (occList (parsedItems rows) t) := by
    rw [lookupD_foldDict_nil]
    cases hocc : occList (parsedItems rows) t with
    | nil => exact absurd hocc hocc_ne
    | cons a rest => simp [accum]
  have hmemD : (t, occList (parsedItems rows) t) ∈ foldDict (parsedItems rows) [] :=
    lookupD_some_mem hlook
  have hnodupS : (keysD (sortDict (foldDict (parsedItems rows) []))).Nodup := by
    have hperm : List.Perm (keysD (sortDict (foldDict (parsedItems rows) [])))
        (keysD (foldDict (parsedItems rows) [])) := (sortDict_perm _).map Prod.fst
    exact hperm.nodup_iff.mpr hnodup
  have hlookS : lookupD (sortDict (foldDict (parsedItems rows) [])) t =
      some (occList (parsedItems rows) t) :=
    lookupD_eq_some_of_mem hnodupS ((sortDict_perm _).mem_iff.mpr hmemD)
  have hcleanS : cleanDict (sortDict (foldDict (parsedItems rows) [])) :=
    fun p hp => hcleanD p ((sortDict_perm _).mem_iff.mp hp)
  rw [List.filter_map]
  have hfc : (sortDict (foldDict (parsedItems rows) [])).filter
        ((fun l => keyOfLine l == t.data) ∘ renderEntry) =
      (sortDict (foldDict (parsedItems rows) [])).filter (fun p => p.1 == t) := by
    apply List.filter_congr
    intro p hp
    show (keyOfLine (renderEntry p) == t.data) = (p.1 == t)
    rw [keyOfLine_renderEntry (hcleanS p hp).1.1]
    by_cases he : p.1 = t
    · subst he
      simp
    · have hd : p.1.data ≠ t.data := fun hdd => he (string_data_inj hdd)
      simp [he, hd]
  rw [hfc, filter_key_of_lookupD hnodupS hlookS, List.map_cons, List.map_nil,
    occList_parsedItems]

/-- C1 witness: two retained rows; the token "P1" occurs twice in the
first row and once in the second, so its unique final row carries
c1, c1, c2 in scan order. -/
theorem c1_inversion_completeness_witness :
    (∀ r ∈ ([⟨"c1", "n", "Human", "P1;P2; P1"⟩, ⟨"c2", "m", "Human", "P1"⟩] : List Row),
      r.organism = "Human" → cleanRowB r = true) ∧
    ∃ c, (processTable [⟨"c1", "n", "Human", "P1;P2; P1"⟩,
        ⟨"c2", "m", "Human", "P1"⟩] none).final = some c ∧
      (dataLines c).filter (fun l => keyOfLine l == ("P1" : String).data) =
        [renderEntry ("P1", occList (humanItems [⟨"c1", "n", "Human", "P1;P2; P1"⟩,
          ⟨"c2", "m", "Human", "P1"⟩]) "P1")] :=
  ⟨by decide, c1_inversion_completeness_amended
    [⟨"c1", "n", "Human", "P1;P2; P1"⟩, ⟨"c2", "m", "Human", "P1"⟩] (by decide)
    ⟨"c1", "n", "Human", "P1;P2; P1"⟩ (List.mem_cons_self _ _) rfl ("P1") (by decide)⟩
